import Mathlib

/-!
Verification of the exam-proctoring edge node backend.

The definitions below are shallow embeddings of the Python sources under
`backend/app/` (engine.py, exam.py, tracker.py, models.py, config.py).
Machine floats of the source are modelled as exact rationals; numpy
`astype(int)` casts are modelled as truncation toward zero; Python dicts
are modelled as association lists with a lookup-respecting setter; the
external assignment solver (scipy `linear_sum_assignment`) and NMS
(`cv2.dnn.NMSBoxes`) are opaque parameters.
-/

/-! ## Bounded drop-oldest queue (engine.py, `video_reader`, lines 124-133)

The producer does: `if raw_q.full(): raw_q.get_nowait()` then
`raw_q.put_nowait(frame)` (an over-full put is silently dropped).
`queue.Queue(maxsize = N)` is full when its length is at least `N`. -/

def offerPut {α : Type} (N : Nat) (q : List α) (x : α) : List α :=
  if q.length < N then q ++ [x] else q

def offerQueue {α : Type} (N : Nat) (q : List α) (x : α) : List α :=
  offerPut N (if N ≤ q.length then q.drop 1 else q) x

/-- The suffix of the last `N` elements of a list (the whole list when shorter). -/
def lastN {α : Type} (N : Nat) (l : List α) : List α := l.drop (l.length - N)

/-! ## Config.get (config.py, lines 14-16)

`os.getenv(env_key) or self._data.get(key, default)`: the environment value
wins only when it is truthy, i.e. a non-empty string.  JSON values have an
arbitrary type `β`; the result is an environment string or a JSON value. -/

def envKey (key : String) : String := (key.replace "." "_").toUpper

def configGetData {β : Type} (data : String → Option β) (key : String)
    (dflt : Option β) : Option (String ⊕ β) :=
  match data key with
  | some j => some (Sum.inr j)
  | none => dflt.map Sum.inr

def configGet {β : Type} (env : String → Option String) (data : String → Option β)
    (key : String) (dflt : Option β) : Option (String ⊕ β) :=
  match env (envKey key) with
  | some v => if v = "" then configGetData data key dflt else some (Sum.inl v)
  | none => configGetData data key dflt

/-! ## FPS window (engine.py, `post_process_loop`, lines 340-349)

State is the pair (frame_times, fps).  The code appends `now`, pops the
front when the window exceeds `FPS_WINDOW_SIZE`, and when more than one
timestamp remains sets `fps = len(frame_times) / (last - first)`. -/

def fpsWindow (wsize : Nat) (prev : List ℚ) (now : ℚ) : List ℚ :=
  if wsize < (prev ++ [now]).length then (prev ++ [now]).drop 1 else prev ++ [now]

def fpsOf (prev : List ℚ × ℚ) (ts2 : List ℚ) : ℚ :=
  if 1 < ts2.length then (ts2.length : ℚ) / (ts2.getLastD 0 - ts2.headD 0) else prev.2

def fpsStep (wsize : Nat) (st : List ℚ × ℚ) (now : ℚ) : List ℚ × ℚ :=
  (fpsWindow wsize st.1 now, fpsOf st (fpsWindow wsize st.1 now))

/-! ## Detector post-processing (models.py, `post_process_det`, lines 17-61)

A raw prediction row holds `(cx, cy, w, h)` plus the per-class scores.  The
code keeps the rows whose maximum class score exceeds `conf_thres`, converts
to top-left form, runs `cv2.dnn.NMSBoxes` (modelled as an opaque function
returning keep indices into the filtered rows), rescales by the per-axis
ratios `orig / det_size`, and assigns into an `np.int32` array, which
truncates each float toward zero.  No clipping is performed anywhere. -/

structure DetRow where
  cx : ℚ
  cy : ℚ
  w : ℚ
  h : ℚ
  clsScores : List ℚ
deriving DecidableEq

/-- Maximum of a list of scores, as `numpy.max` over a row (rows have at
least one class score in practice; the empty case is arbitrary). -/
def maxScore : List ℚ → ℚ
  | [] => 0
  | x :: xs => xs.foldl max x

def detCandidates (pred : List DetRow) (conf : ℚ) : List DetRow :=
  pred.filter (fun r => conf < maxScore r.clsScores)

/-- Top-left box form `(x, y, w, h)` of a candidate row. -/
def detXYWH (r : DetRow) : ℚ × ℚ × ℚ × ℚ :=
  (r.cx - r.w / 2, r.cy - r.h / 2, r.w, r.h)

/-- Truncation toward zero, the effect of assigning a float into an
`np.int32` array. -/
def ratTrunc (q : ℚ) : ℤ := Int.tdiv q.num q.den

/-- Rescale a candidate row to original-frame coordinates and cast to
integers, exactly as models.py lines 54-59 (`w_s = ow / dw`, `h_s = oh / dh`,
x2 and y2 computed from `x + w` and `y + h`, `dtype=np.int32`). -/
def scaleBox (ow oh dw dh : ℚ) (r : DetRow) : ℤ × ℤ × ℤ × ℤ :=
  (ratTrunc ((detXYWH r).1 * (ow / dw)),
   ratTrunc ((detXYWH r).2.1 * (oh / dh)),
   ratTrunc (((detXYWH r).1 + (detXYWH r).2.2.1) * (ow / dw)),
   ratTrunc (((detXYWH r).2.1 + (detXYWH r).2.2.2) * (oh / dh)))

/-- The detector post-processing. `nms` abstracts `cv2.dnn.NMSBoxes`; it
receives the candidate `(x, y, w, h)` boxes and their scores and returns the
list of kept indices into the candidate list. -/
def postProcessDet (nms : List (ℚ × ℚ × ℚ × ℚ) → List ℚ → List Nat)
    (pred : List DetRow) (ow oh conf dw dh : ℚ) :
    List (ℤ × ℤ × ℤ × ℤ) × List ℚ :=
  if detCandidates pred conf = [] then ([], [])
  else
    if nms ((detCandidates pred conf).map detXYWH)
        ((detCandidates pred conf).map (fun r => maxScore r.clsScores)) = []
    then ([], [])
    else
      ((nms ((detCandidates pred conf).map detXYWH)
          ((detCandidates pred conf).map (fun r => maxScore r.clsScores))).map
        (fun k => scaleBox ow oh dw dh
          ((detCandidates pred conf).getD k ⟨0, 0, 0, 0, []⟩)),
       (nms ((detCandidates pred conf).map detXYWH)
          ((detCandidates pred conf).map (fun r => maxScore r.clsScores))).map
        (fun k => maxScore ((detCandidates pred conf).getD k ⟨0, 0, 0, 0, []⟩).clsScores))

/-- An NMS instance for a single candidate with score above the threshold:
`cv2.dnn.NMSBoxes` keeps it (index 0). -/
def nmsSingle : List (ℚ × ℚ × ℚ × ℚ) → List ℚ → List Nat := fun _ _ => [0]

/-! ## Detection-to-class pairing (engine.py, lines 205-220 and 277-278)

`main_loop` builds classification crops only for boxes with positive width
and height, so `cls_ids` indexes the kept boxes; `post_process_loop` pairs
box `i` with `cls_ids[i] if i < len(cls_ids) else 0`. -/

structure Box where
  x1 : ℤ
  y1 : ℤ
  x2 : ℤ
  y2 : ℤ
deriving DecidableEq

/-- The crop-list filter of engine.py line 213:
`(b[3] - b[1]) > 0 and (b[2] - b[0]) > 0`. -/
def posCrop (b : Box) : Bool := 0 < b.y2 - b.y1 ∧ 0 < b.x2 - b.x1

/-- The class-id list emitted by the inference stage: one class id per
positive-area box, in box order (`classify` abstracts resize + the
classification model + argmax). -/
def clsIdsOf (classify : Box → Nat) (boxes : List Box) : List Nat :=
  (boxes.filter posCrop).map classify

/-- The class id paired with box index `i` in `post_process_loop`:
`cls_ids[i] if i < len(cls_ids) else 0`. -/
def pairedCls (clsIds : List Nat) (i : Nat) : Nat := clsIds.getD i 0

/-- Default anomaly class set (engine.py line 255). -/
def defaultAnomalyClasses : List Nat := [0, 1, 2, 3]

/-- Default snapshot class set (engine.py line 256). -/
def defaultSnapshotClasses : List Nat := [0, 1, 2, 3]

/-! ## Tracker (tracker.py)

Boxes are integer pixel rectangles (detections arrive as `np.int32` values
via `boxes.tolist()`).  IoU is computed exactly over the rationals; the
assignment solver `scipy.optimize.linear_sum_assignment` is an opaque
parameter supplying the matched (row, column) pairs. -/

def defBox : Box := ⟨0, 0, 0, 0⟩

structure Track where
  id : Nat
  boxes : List Box
  last_update : Nat
deriving DecidableEq

def defTrack : Track := ⟨0, [], 0⟩

/-- The latest box of a track (`t.boxes[-1]`; tracks always hold at least
one box by construction). -/
def Track.lastBox (t : Track) : Box := t.boxes.getLastD defBox

/-- `Track.update`: append the box and reset the staleness counter. -/
def Track.updateWith (t : Track) (b : Box) : Track := ⟨t.id, t.boxes ++ [b], 0⟩

def boxCenterQ (b : Box) : ℚ × ℚ :=
  (((b.x1 : ℚ) + (b.x2 : ℚ)) / 2, ((b.y1 : ℚ) + (b.y2 : ℚ)) / 2)

/-- `Track.get_avg_center`: `None` on an empty history, otherwise the mean
center truncated to integers (`astype(int)`). -/
def Track.avgCenter (t : Track) : Option (ℤ × ℤ) :=
  match t.boxes with
  | [] => none
  | _ => some
      (ratTrunc ((t.boxes.map (fun b => (boxCenterQ b).1)).sum / (t.boxes.length : ℚ)),
       ratTrunc ((t.boxes.map (fun b => (boxCenterQ b).2)).sum / (t.boxes.length : ℚ)))

/-- `vectorized_iou` for a single pair, with the `union == 0 → 0` fix. -/
def iouQ (a b : Box) : ℚ :=
  let ix1 : ℚ := max (a.x1 : ℚ) (b.x1 : ℚ)
  let iy1 : ℚ := max (a.y1 : ℚ) (b.y1 : ℚ)
  let ix2 : ℚ := min (a.x2 : ℚ) (b.x2 : ℚ)
  let iy2 : ℚ := min (a.y2 : ℚ) (b.y2 : ℚ)
  let interArea : ℚ := max 0 (ix2 - ix1) * max 0 (iy2 - iy1)
  let area1 : ℚ := ((a.x2 : ℚ) - (a.x1 : ℚ)) * ((a.y2 : ℚ) - (a.y1 : ℚ))
  let area2 : ℚ := ((b.x2 : ℚ) - (b.x1 : ℚ)) * ((b.y2 : ℚ) - (b.y1 : ℚ))
  let unionArea : ℚ := area1 + area2 - interArea
  if unionArea = 0 then 0 else interArea / unionArea

structure TrackerState where
  tracks : List Track
  next_id : Nat
  max_age : Nat
  iou_threshold : ℚ
deriving DecidableEq

/-- `Tracker()` with default `max_age=10`, `iou_threshold=0.3`. -/
def trackerInit : TrackerState := ⟨[], 0, 10, 3 / 10⟩

/-- Cost matrix entry: `1 - IoU(track r latest box, detection c)`; a zero
matrix when the detection list is empty (tracker.py lines 76-82; in
`Tracker.update` this is only reached with a non-empty track list). -/
def trackCost (s : TrackerState) (dets : List Box) (r c : Nat) : ℚ :=
  if dets = [] then 0
  else 1 - iouQ ((s.tracks.getD r defTrack).lastBox) (dets.getD c defBox)

/-- The assignment pairs accepted by the IoU gate:
`cost_matrix[r, c] < 1 - iou_threshold` (tracker.py line 90). -/
def acceptedPairs (assign : List (Nat × Nat)) (s : TrackerState) (dets : List Box) :
    List (Nat × Nat) :=
  assign.filter (fun rc => trackCost s dets rc.1 rc.2 < 1 - s.iou_threshold)

/-- One loop body of the matched-pair update:
`self.tracks[r].update(detections[c])`. -/
def matchStep (dets : List Box) (ts : List Track) (rc : Nat × Nat) : List Track :=
  ts.set rc.1 ((ts.getD rc.1 defTrack).updateWith (dets.getD rc.2 defBox))

def afterMatch (assign : List (Nat × Nat)) (s : TrackerState) (dets : List Box) :
    List Track :=
  (acceptedPairs assign s dets).foldl (matchStep dets) s.tracks

/-- Detections whose index is not in `matched_dets`, in index order. -/
def unmatchedDets (assign : List (Nat × Nat)) (s : TrackerState) (dets : List Box) :
    List Box :=
  ((dets.enum).filter
    (fun jd => decide (jd.1 ∉ (acceptedPairs assign s dets).map Prod.snd))).map Prod.snd

/-- New tracks spawned for unmatched detections, with fresh increasing ids. -/
def spawnedTracks (assign : List (Nat × Nat)) (s : TrackerState) (dets : List Box) :
    List Track :=
  (unmatchedDets assign s dets).enum.map (fun kd => ⟨s.next_id + kd.1, [kd.2], 0⟩)

def afterSpawn (assign : List (Nat × Nat)) (s : TrackerState) (dets : List Box) :
    List Track :=
  afterMatch assign s dets ++ spawnedTracks assign s dets

/-- The age-increment loop (tracker.py lines 102-104): it runs over
`range(len(self.tracks))` after the new tracks were appended, so every index
not in `matched_tracks` is incremented, the freshly spawned ones included. -/
def agedTracks (assign : List (Nat × Nat)) (s : TrackerState) (dets : List Box) :
    List Track :=
  (afterSpawn assign s dets).enum.map
    (fun it => if it.1 ∈ (acceptedPairs assign s dets).map Prod.fst then it.2
               else ⟨it.2.id, it.2.boxes, it.2.last_update + 1⟩)

/-- `Tracker.update`.  On an empty track set all detections spawn tracks and
the function returns; otherwise match, spawn, age, and drop tracks with
`last_update > max_age`. -/
def trackerUpdate (assign : List (Nat × Nat)) (s : TrackerState) (dets : List Box) :
    TrackerState :=
  if s.tracks = [] then
    { s with tracks := dets.enum.map (fun jd => ⟨s.next_id + jd.1, [jd.2], 0⟩),
             next_id := s.next_id + dets.length }
  else
    { s with
      tracks := (agedTracks assign s dets).filter (fun t => t.last_update ≤ s.max_age),
      next_id := s.next_id + (unmatchedDets assign s dets).length }

/-- `Tracker.get_final_centers`: average center per surviving track, indexed
by track id, skipping empty histories. -/
def getFinalCenters (s : TrackerState) : List (Nat × ℤ × ℤ) :=
  s.tracks.filterMap (fun t => t.avgCenter.map (fun c => (t.id, c.1, c.2)))

/-! ## Calibration window (engine.py, `main_loop`, lines 194-204)

While `tracking_event` is set, each inferred frame feeds its boxes to the
tracker and increments `frame_count`; on reaching `max_frames` the engine
publishes `get_final_centers()` as `final_centers`, clears the event and
resets the counter.  A frame is a pair (detected boxes, assignment given by
the solver for this step). -/

structure CalibState where
  tracker : TrackerState
  frame_count : Nat
  max_frames : Nat
  final_centers : Option (List (Nat × ℤ × ℤ))
  tracking : Bool
deriving DecidableEq

def calibStep (st : CalibState) (inp : List Box × List (Nat × Nat)) : CalibState :=
  if st.tracking then
    if st.max_frames ≤ st.frame_count + 1 then
      { st with tracker := trackerUpdate inp.2 st.tracker inp.1,
                frame_count := 0,
                final_centers := some (getFinalCenters (trackerUpdate inp.2 st.tracker inp.1)),
                tracking := false }
    else
      { st with tracker := trackerUpdate inp.2 st.tracker inp.1,
                frame_count := st.frame_count + 1 }
  else st

def calibRun (st : CalibState) (frames : List (List Box × List (Nat × Nat))) : CalibState :=
  frames.foldl calibStep st

def trackerFold (tr : TrackerState) (frames : List (List Box × List (Nat × Nat))) :
    TrackerState :=
  frames.foldl (fun s p => trackerUpdate p.2 s p.1) tr

/-! ## Seat attribution (engine.py, `post_process_loop`, lines 277-292)

For each box the code computes the center, the Euclidean distances to all
seat centers, takes the minimum and the first argmin, and attributes the box
to that seat when the distance is within `anomaly_match_threshold`; an
attributed box increments the seat counter exactly when its class id is in
`anomaly_classes`.  The square-root-free comparison `withinThr dsq thr`
is exactly `sqrt dsq ≤ thr` over the reals. -/

def distSqQ (p q : ℚ × ℚ) : ℚ := (p.1 - q.1) ^ 2 + (p.2 - q.2) ^ 2

def seatDistSq (s : Nat × ℤ × ℤ) (c : ℚ × ℚ) : ℚ :=
  distSqQ ((s.2.1 : ℚ), (s.2.2 : ℚ)) c

def nearestFold (c : ℚ × ℚ) (best : Nat × ℚ) (t : Nat × ℤ × ℤ) : Nat × ℚ :=
  if seatDistSq t c < best.2 then (t.1, seatDistSq t c) else best

/-- Minimum distance and first argmin over the seat list (`np.min` /
`np.argmin`: a strictly smaller distance replaces the running best, so ties
keep the earlier seat), returning (seat id, squared distance). -/
def nearestSeat (seats : List (Nat × ℤ × ℤ)) (c : ℚ × ℚ) : Option (Nat × ℚ) :=
  match seats with
  | [] => none
  | s :: rest => some (rest.foldl (nearestFold c) (s.1, seatDistSq s c))

/-- The comparison `distance ≤ threshold` on real distances, expressed on
squared distances: for `dsq ≥ 0` it holds iff `0 ≤ thr ∧ dsq ≤ thr²`. -/
def withinThr (dsq thr : ℚ) : Prop := 0 ≤ thr ∧ dsq ≤ thr ^ 2

instance (dsq thr : ℚ) : Decidable (withinThr dsq thr) :=
  inferInstanceAs (Decidable (_ ∧ _))

/-- Python dict assignment on an association list: the new binding shadows
any previous binding of the same key. -/
def alSet {κ ν : Type} [BEq κ] (k : κ) (v : ν) (l : List (κ × ν)) :
    List (κ × ν) :=
  (k, v) :: l.filter (fun p => !(p.1 == k))

def incrCount (counts : List (Nat × Nat)) (sid : Nat) : List (Nat × Nat) :=
  alSet sid ((counts.lookup sid).getD 0 + 1) counts

/-- The per-box anomaly-counter update of `post_process_loop` (running exam,
seats snapshot already taken). -/
def processBox (seats : List (Nat × ℤ × ℤ)) (thr : ℚ) (ac : List Nat)
    (counts : List (Nat × Nat)) (b : Box) (cls : Nat) : List (Nat × Nat) :=
  match nearestSeat seats (boxCenterQ b) with
  | none => counts
  | some sd =>
    if withinThr sd.2 thr then
      (if cls ∈ ac then incrCount counts sd.1 else counts)
    else counts

/-! ## Anomaly runs and snapshot triggering (exam.py,
`update_anomaly_snapshots`, lines 279-332)

Per `(seat, class)` key the code keeps `{count, last_time, last_frame}` and a
cooldown map `(seat, class) → last_snapshot_frame` defaulted to 0.  On each
occurrence at global frame `f` the consecutive count is recomputed (reset to
1 unless `f == last_frame + 1`), and a snapshot fires when
`count ≥ snapshot_threshold_frames` and
`f − last_snapshot_frame ≥ snapshot_cooldown_frames`; firing records
`last_snapshot_frame = f` and resets the count to 0. -/

structure RunInfo where
  count : Nat
  last_time : ℚ
  last_frame : Option Nat
deriving DecidableEq

structure SnapState where
  runs : List ((Nat × Nat) × RunInfo)
  cooldown : List ((Nat × Nat) × Nat)
deriving DecidableEq

def snapInit : SnapState := ⟨[], []⟩

def getRun (st : SnapState) (key : Nat × Nat) (ts : ℚ) : RunInfo :=
  (st.runs.lookup key).getD ⟨0, ts, none⟩

def getCooldown (st : SnapState) (key : Nat × Nat) : Nat :=
  (st.cooldown.lookup key).getD 0

/-- The consecutive count after an occurrence at frame `f`
(exam.py lines 308-313). -/
def runCount (r0 : RunInfo) (f : Nat) : Nat :=
  match r0.last_frame with
  | none => 1
  | some lf => if f = lf + 1 then r0.count + 1 else 1

/-- The snapshot condition of exam.py lines 324-327 (frame subtraction is
Python int arithmetic, hence over ℤ). -/
def snapFires (tf cf : Nat) (key : Nat × Nat) (f : Nat) (ts : ℚ) (st : SnapState) :
    Bool :=
  decide (tf ≤ runCount (getRun st key ts) f) &&
    decide ((cf : ℤ) ≤ (f : ℤ) - (getCooldown st key : ℤ))

/-- One occurrence of `(seat, class)` at frame `f`: the body of the anomaly
loop in `update_anomaly_snapshots` for that key.  Returns the new state and
whether a snapshot was written. -/
def stepRun (tf cf : Nat) (key : Nat × Nat) (f : Nat) (ts : ℚ) (st : SnapState) :
    SnapState × Bool :=
  if snapFires tf cf key f ts st then
    (⟨alSet key ⟨0, ts, some f⟩ st.runs, alSet key f st.cooldown⟩, true)
  else
    (⟨alSet key ⟨runCount (getRun st key ts) f, ts, some f⟩ st.runs, st.cooldown⟩, false)

/-- A stream on which the `(seat, class)` anomaly occurs on every global
frame 1, 2, …, n from the start of the exam; returns the final state and the
list of frames on which a snapshot was written. -/
def runStream (tf cf : Nat) (key : Nat × Nat) : Nat → SnapState × List Nat
  | 0 => (snapInit, [])
  | n + 1 =>
    ((stepRun tf cf key (n + 1) 0 (runStream tf cf key n).1).1,
     if (stepRun tf cf key (n + 1) 0 (runStream tf cf key n).1).2
     then (runStream tf cf key n).2 ++ [n + 1]
     else (runStream tf cf key n).2)

/-! ## Exam lifecycle (exam.py, `start_exam` lines 67-130 and `stop_exam`
lines 132-188)

The visible exam state, engine gates included.  Both operations return the
new state together with the raised error message, if any; in the source both
error checks precede every mutation, so a failing call returns the input
state unchanged.  `durationParse` is the result of Python `int(duration)`
(`none` models the `ValueError` of an unparsable string), and
`classroomUrl` the result of `get_classroom_url`. -/

structure ExamState where
  exam_running : Bool
  exam_id : Option ℤ
  subject : Option String
  duration : Option ℤ
  classroom_id : Option ℤ
  start_time : Option ℚ
  student_count : Nat
  anomaly_counts : List (Nat × Nat)
  snap : SnapState
  frame_counter : Nat
  current_snapshot_dir : Option String
  inferring_on : Bool
  video_on : Bool
  video_path : Option String
  final_centers : Option (List (Nat × ℤ × ℤ))
  tracking_on : Bool
deriving DecidableEq

def startExam (s : ExamState) (subject : String) (cid : ℤ)
    (durationParse : Option ℤ) (classroomUrl : Option String) (now : ℚ) :
    ExamState × Option String :=
  if s.exam_running then (s, some "An exam is already running")
  else
    match durationParse with
    | none => (s, some "Invalid duration format")
    | some d =>
      match classroomUrl with
      | none => (s, some "Classroom not found")
      | some url =>
        ({ s with
            video_path := some url,
            inferring_on := true,
            video_on := true,
            exam_running := true,
            exam_id := none,
            subject := some subject,
            duration := some (d * 60),
            classroom_id := some cid,
            start_time := some now,
            student_count := 0,
            anomaly_counts := [],
            snap := snapInit,
            frame_counter := 0,
            current_snapshot_dir :=
              some ("snapshots/" ++ subject ++ "_" ++ toString cid ++ "_"
                ++ toString (ratTrunc now)) }, none)

def stopExam (s : ExamState) : ExamState × Option String :=
  if s.exam_running = false then (s, some "No exam is currently running")
  else
    ({ s with
        inferring_on := false,
        video_on := false,
        final_centers := none,
        exam_running := false,
        exam_id := none,
        subject := none,
        duration := none,
        classroom_id := none,
        start_time := none,
        student_count := 0,
        anomaly_counts := [],
        snap := snapInit,
        frame_counter := 0,
        current_snapshot_dir := none }, none)

def examIdle : ExamState :=
  ⟨false, none, none, none, none, none, 0, [], snapInit, 0, none, false, false,
   none, none, false⟩

def predNeg : List DetRow := [⟨0, 0, 100, 100, [1]⟩]

/-! ### Theorems -/

theorem offerQueue_length_le {α : Type} (N : Nat) (q : List α) (x : α)
    (h : q.length ≤ N) : (offerQueue N q x).length ≤ N := by
  unfold offerQueue offerPut
  split
  · split
    · simp; omega
    · simp; omega
  · split
    · simp; omega
    · exact h

theorem lastN_eq_reverse_take {α : Type} (N : Nat) (l : List α) :
    lastN N l = (l.reverse.take N).reverse := by
  unfold lastN
  rw [List.take_reverse, List.reverse_reverse]

theorem offerQueue_eq_lastN {α : Type} (N : Nat) (q : List α) (x : α)
    (hN : 1 ≤ N) (h : q.length ≤ N) :
    offerQueue N q x = lastN N (q ++ [x]) := by
  unfold offerQueue offerPut lastN
  by_cases h1 : N ≤ q.length
  · have hq : q.length = N := Nat.le_antisymm h h1
    have h2 : (q.drop 1).length < N := by simp; omega
    rw [if_pos h1, if_pos h2]
    have h3 : (q ++ [x]).length - N = 1 := by simp; omega
    rw [h3]
    rw [List.drop_append_of_le_length (by omega)]
  · have h2 : q.length < N := Nat.lt_of_not_le h1
    have h3 : (q ++ [x]).length - N = 0 := by simp; omega
    rw [if_neg h1, if_pos h2, h3, List.drop_zero]

theorem lastN_idem_append {α : Type} (N : Nat) (l xs : List α) :
    lastN N (lastN N l ++ xs) = lastN N (l ++ xs) := by
  simp only [lastN_eq_reverse_take, List.reverse_append, List.reverse_reverse]
  congr 1
  rw [List.take_append_eq_append_take, List.take_append_eq_append_take, List.take_take]
  have hmin : min (N - xs.reverse.length) N = N - xs.reverse.length := by omega
  rw [hmin]

theorem foldl_offerQueue_eq_lastN {α : Type} (N : Nat) (hN : 1 ≤ N) :
    ∀ (xs : List α) (q : List α), q.length ≤ N →
      xs.foldl (offerQueue N) q = lastN N (q ++ xs) := by
  intro xs
  induction xs with
  | nil =>
    intro q h
    have h0 : q.length - N = 0 := by omega
    simp [lastN, h0]
  | cons x xs ih =>
    intro q h
    have h1 : (offerQueue N q x).length ≤ N := offerQueue_length_le N q x h
    calc (x :: xs).foldl (offerQueue N) q = xs.foldl (offerQueue N) (offerQueue N q x) := rfl
    _ = lastN N (offerQueue N q x ++ xs) := ih _ h1
    _ = lastN N (lastN N (q ++ [x]) ++ xs) := by rw [offerQueue_eq_lastN N q x hN h]
    _ = lastN N ((q ++ [x]) ++ xs) := lastN_idem_append N _ _
    _ = lastN N (q ++ x :: xs) := by simp

/-- C5: the raw frame queue has fixed capacity `N` and drop-oldest offer
semantics: offering never grows the queue beyond `N`, and any sequence of
`K > N` offers with no intervening poll leaves exactly the last `N` offered
items, in offer order. -/
theorem raw_queue_drop_oldest {α : Type} (N : Nat) (q xs : List α)
    (hN : 1 ≤ N) (hq : q.length ≤ N) (hK : N < xs.length) :
    (∀ (r : List α) (y : α), r.length ≤ N → (offerQueue N r y).length ≤ N) ∧
    xs.foldl (offerQueue N) q = xs.drop (xs.length - N) := by
  refine ⟨fun r y hr => offerQueue_length_le N r y hr, ?_⟩
  rw [foldl_offerQueue_eq_lastN N hN xs q hq]
  unfold lastN
  have harith : (q ++ xs).length - N = q.length + (xs.length - N) := by
    simp; omega
  rw [harith, List.drop_append_eq_append_drop]
  simp

theorem raw_queue_drop_oldest_witness :
    (1 ≤ 2 ∧ ([] : List Nat).length ≤ 2 ∧ 2 < [10, 20, 30].length) ∧
    [10, 20, 30].foldl (offerQueue 2) [] = [20, 30] := by
  refine ⟨by decide, ?_⟩
  have h := raw_queue_drop_oldest 2 ([] : List Nat) [10, 20, 30]
    (by decide) (by decide) (by decide)
  simpa using h.2

/-- C9 counterexample: an environment variable set to the empty string does
not take precedence; `os.getenv(k) or data.get(key, default)` falls through
to the JSON value because the empty string is falsy in Python. -/
theorem config_env_empty_counterexample :
    configGet (fun _ => some "") (fun _ => some (5 : Nat)) "QUEUE_SIZE" none
      = some (Sum.inr 5) ∧
    configGet (fun _ => some "") (fun _ => some (5 : Nat)) "QUEUE_SIZE" none
      ≠ some (Sum.inl "") := by
  constructor
  · rfl
  · intro h
    simp [configGet, configGetData] at h

/-- C9 (amended): `Config.get` returns the environment value for the key
uppercased with dots replaced by underscores whenever that variable is set to
a non-empty string; when it is unset or set to the empty string, it returns
the JSON value, and otherwise the supplied default. -/
theorem config_get_amended {β : Type} (env : String → Option String)
    (data : String → Option β) (key : String) (dflt : Option β) :
    (∀ v, env (envKey key) = some v → v ≠ "" →
      configGet env data key dflt = some (Sum.inl v)) ∧
    ((env (envKey key) = none ∨ env (envKey key) = some "") →
      ∀ j, data key = some j → configGet env data key dflt = some (Sum.inr j)) ∧
    ((env (envKey key) = none ∨ env (envKey key) = some "") →
      data key = none → configGet env data key dflt = dflt.map Sum.inr) := by
  refine ⟨?_, ?_, ?_⟩
  · intro v hv hne
    simp [configGet, hv, hne]
  · rintro (h | h) j hj <;> simp [configGet, h, configGetData, hj]
  · rintro (h | h) hj <;> simp [configGet, h, configGetData, hj]

theorem config_get_amended_witness :
    configGet (fun _ => some "7") (fun _ => (none : Option Nat)) "QUEUE_SIZE" none
      = some (Sum.inl "7") :=
  (config_get_amended (fun _ => some "7") (fun _ => (none : Option Nat))
    "QUEUE_SIZE" none).1 "7" rfl (by decide)

/-- C4 counterexample: with a fresh window holding one timestamp 0 and a new
timestamp 1, the code reports FPS = 2 / (1 - 0) = 2, not (2 - 1) / (1 - 0) = 1:
the numerator is the window length, not the window length minus one. -/
theorem fps_formula_counterexample :
    (fpsStep 5 ([0], 0) 1).2 = 2 ∧ ((2 : ℚ) ≠ (2 - 1) / (1 - 0)) := by
  constructor
  · norm_num [fpsStep, fpsWindow, fpsOf]
  · norm_num

/-- C4 (amended): after each processed frame the FPS window holds at most
`FPS_WINDOW_SIZE` timestamps, oldest dropped first (the new window is the
suffix of the old window extended by the new timestamp), and whenever the
window length is greater than 1 the reported FPS equals
len / (last - first) over the timestamps in the window. -/
theorem fps_window_amended (wsize : Nat) (st : List ℚ × ℚ) (now : ℚ)
    (h : st.1.length ≤ wsize) :
    (fpsStep wsize st now).1 = lastN wsize (st.1 ++ [now]) ∧
    (fpsStep wsize st now).1.length ≤ wsize ∧
    (1 < (fpsStep wsize st now).1.length →
      (fpsStep wsize st now).2 = ((fpsStep wsize st now).1.length : ℚ) /
        ((fpsStep wsize st now).1.getLastD 0 - (fpsStep wsize st now).1.headD 0)) := by
  refine ⟨?_, ?_, ?_⟩
  · unfold fpsStep fpsWindow lastN
    by_cases h1 : wsize < (st.1 ++ [now]).length
    · have h2 : (st.1 ++ [now]).length - wsize = 1 := by simp at h1 ⊢; omega
      rw [if_pos h1, h2]
    · have h2 : (st.1 ++ [now]).length - wsize = 0 := by simp at h1 ⊢; omega
      rw [if_neg h1, h2, List.drop_zero]
  · unfold fpsStep fpsWindow
    by_cases h1 : wsize < (st.1 ++ [now]).length
    · rw [if_pos h1]; simp at h1 ⊢; omega
    · rw [if_neg h1]; simp at h1 ⊢; omega
  · intro hgt
    unfold fpsStep fpsOf at hgt ⊢
    rw [if_pos hgt]

theorem fps_window_amended_witness :
    ([(0 : ℚ)], (0 : ℚ)).1.length ≤ 5 ∧
    ((fpsStep 5 ([0], 0) 1).1 = lastN 5 ([(0 : ℚ)] ++ [1]) ∧
      (fpsStep 5 ([0], 0) 1).2 = ((fpsStep 5 ([0], 0) 1).1.length : ℚ) /
        ((fpsStep 5 ([0], 0) 1).1.getLastD 0 - (fpsStep 5 ([0], 0) 1).1.headD 0)) := by
  refine ⟨by decide, ?_⟩
  have h := fps_window_amended 5 ([0], 0) 1 (by decide)
  exact ⟨h.1, h.2.2 (by norm_num [fpsStep, fpsWindow])⟩

/-- C8: StartExam raises whenever an exam is already running or the duration
string is unparsable; StopExam raises whenever no exam is running; in every
such failing call the whole exam state (running flag, counters, seat map,
snapshot state, gates) is returned unchanged. -/
theorem exam_fsm_errors (s : ExamState) (subject : String) (cid : ℤ)
    (dur : Option ℤ) (url : Option String) (now : ℚ) :
    (s.exam_running = true →
      startExam s subject cid dur url now = (s, some "An exam is already running")) ∧
    (s.exam_running = false →
      startExam s subject cid none url now = (s, some "Invalid duration format")) ∧
    (s.exam_running = false →
      stopExam s = (s, some "No exam is currently running")) := by
  refine ⟨?_, ?_, ?_⟩
  · intro h; simp [startExam, h]
  · intro h; simp [startExam, h]
  · intro h; simp [stopExam, h]

theorem exam_fsm_errors_witness :
    startExam examIdle "math" 1 none (some "rtsp://cam") 0
      = (examIdle, some "Invalid duration format") ∧
    stopExam examIdle = (examIdle, some "No exam is currently running") :=
  ⟨(exam_fsm_errors examIdle "math" 1 none (some "rtsp://cam") 0).2.1 rfl,
   (exam_fsm_errors examIdle "math" 1 none (some "rtsp://cam") 0).2.2 rfl⟩

theorem nearestFold_spec (c : ℚ × ℚ) :
    ∀ (rest : List (Nat × ℤ × ℤ)) (best : Nat × ℚ),
      (rest.foldl (nearestFold c) best = best ∨
        ∃ t ∈ rest, rest.foldl (nearestFold c) best = (t.1, seatDistSq t c)) ∧
      (rest.foldl (nearestFold c) best).2 ≤ best.2 ∧
      ∀ t ∈ rest, (rest.foldl (nearestFold c) best).2 ≤ seatDistSq t c := by
  intro rest
  induction rest with
  | nil => intro best; refine ⟨Or.inl rfl, le_refl _, ?_⟩; intro t ht; simp at ht
  | cons u rest ih =>
    intro best
    have hstep : rest.foldl (nearestFold c) (nearestFold c best u)
        = (u :: rest).foldl (nearestFold c) best := rfl
    obtain ⟨h1, h2, h3⟩ := ih (nearestFold c best u)
    have hbu : nearestFold c best u = best ∨
        nearestFold c best u = (u.1, seatDistSq u c) := by
      unfold nearestFold
      by_cases h : seatDistSq u c < best.2
      · exact Or.inr (by rw [if_pos h])
      · exact Or.inl (by rw [if_neg h])
    have hle : (nearestFold c best u).2 ≤ best.2 := by
      unfold nearestFold
      by_cases h : seatDistSq u c < best.2
      · rw [if_pos h]; exact le_of_lt h
      · rw [if_neg h]
    have hleu : (nearestFold c best u).2 ≤ seatDistSq u c := by
      unfold nearestFold
      by_cases h : seatDistSq u c < best.2
      · rw [if_pos h]
      · rw [if_neg h]; exact le_of_not_lt h
    refine ⟨?_, ?_, ?_⟩
    · rw [← hstep]
      rcases h1 with h1 | ⟨t, ht, hres⟩
      · rw [h1]
        rcases hbu with hb | hb
        · exact Or.inl hb
        · exact Or.inr ⟨u, by simp, hb⟩
      · exact Or.inr ⟨t, by simp [ht], hres⟩
    · rw [← hstep]; exact le_trans h2 hle
    · rw [← hstep]
      intro t ht
      rcases List.mem_cons.mp ht with rfl | ht
      · exact le_trans h2 hleu
      · exact h3 t ht

theorem nearestSeat_spec (seats : List (Nat × ℤ × ℤ)) (c : ℚ × ℚ) (r : Nat × ℚ)
    (h : nearestSeat seats c = some r) :
    (∃ s ∈ seats, r = (s.1, seatDistSq s c)) ∧ ∀ t ∈ seats, r.2 ≤ seatDistSq t c := by
  match seats, h with
  | s :: rest, h =>
    have hr : r = rest.foldl (nearestFold c) (s.1, seatDistSq s c) := by
      unfold nearestSeat at h
      exact (Option.some_injective _ h).symm
    obtain ⟨h1, h2, h3⟩ := nearestFold_spec c rest (s.1, seatDistSq s c)
    constructor
    · rcases h1 with h1 | ⟨t, ht, hres⟩
      · exact ⟨s, by simp, by rw [hr, h1]⟩
      · exact ⟨t, by simp [ht], by rw [hr, hres]⟩
    · intro t ht
      rcases List.mem_cons.mp ht with rfl | ht
      · rw [hr]; exact h2
      · rw [hr]; exact h3 t ht

/-- C6: while an exam runs with a non-empty seat map, a box whose center has
a unique nearest seat within `anomaly_match_threshold` is attributed to that
seat and its counter is incremented exactly when the class id is in
`anomaly_classes`; a box farther than the threshold from every seat changes
no counter.  Real distance comparisons are expressed on squared distances
(`withinThr`), which is equivalent for a non-negative threshold. -/
theorem anomaly_attribution (seats : List (Nat × ℤ × ℤ)) (thr : ℚ) (ac : List Nat)
    (counts : List (Nat × Nat)) (b : Box) (cls : Nat) (hthr : 0 ≤ thr) :
    (∀ s0 ∈ seats,
      (∀ t ∈ seats, t ≠ s0 →
        seatDistSq s0 (boxCenterQ b) < seatDistSq t (boxCenterQ b)) →
      seatDistSq s0 (boxCenterQ b) ≤ thr ^ 2 →
      processBox seats thr ac counts b cls
        = if cls ∈ ac then incrCount counts s0.1 else counts) ∧
    ((∀ t ∈ seats, thr ^ 2 < seatDistSq t (boxCenterQ b)) →
      processBox seats thr ac counts b cls = counts) := by
  constructor
  · intro s0 hs0 huniq hle
    match hval : nearestSeat seats (boxCenterQ b) with
    | none =>
      rcases seats with _ | ⟨u, rest⟩
      · simp at hs0
      · simp [nearestSeat] at hval
    | some r =>
      obtain ⟨⟨s, hs, hrs⟩, hmin⟩ := nearestSeat_spec seats (boxCenterQ b) r hval
      have hss : s = s0 := by
        by_contra hne
        have h1 := huniq s hs hne
        have h2 := hmin s0 hs0
        rw [hrs] at h2
        simp at h2
        exact absurd h1 (not_lt.mpr h2)
      subst hss
      have hw : withinThr r.2 thr := by
        constructor
        · exact hthr
        · rw [hrs]; exact hle
      simp only [processBox, hval]
      rw [if_pos hw, hrs]
  · intro hfar
    match hval : nearestSeat seats (boxCenterQ b) with
    | none => simp only [processBox, hval]
    | some r =>
      obtain ⟨⟨s, hs, hrs⟩, hmin⟩ := nearestSeat_spec seats (boxCenterQ b) r hval
      have hw : ¬ withinThr r.2 thr := by
        intro hw
        have h1 := hfar s hs
        rw [hrs] at hw
        exact absurd hw.2 (not_le.mpr h1)
      simp only [processBox, hval]
      rw [if_neg hw]

theorem anomaly_attribution_witness :
    (0 : ℚ) ≤ 5 ∧
    processBox [(3, 10, 10)] 5 [0, 1, 2, 3] [] ⟨8, 8, 12, 12⟩ 1
      = incrCount [] 3 := by
  refine ⟨by norm_num, ?_⟩
  have h := (anomaly_attribution [(3, 10, 10)] 5 [0, 1, 2, 3] [] ⟨8, 8, 12, 12⟩ 1
    (by norm_num)).1 (3, 10, 10) (by simp)
    (by intro t ht hne; simp at ht; exact absurd ht hne)
    (by norm_num [seatDistSq, distSqQ, boxCenterQ])
  rw [h]
  simp

/-- C2 counterexample: `post_process_det` performs no clipping.  A detection
centered at the origin with width 100 on a 640x640 frame (unit rescale
ratio) yields the box (-50, -50, 50, 50): its x1 is negative, outside
`[0, W)`, falsifying the claim that every returned box is clipped to the
frame. -/
theorem det_no_clip_counterexample :
    (postProcessDet nmsSingle predNeg 640 640 (1 / 2) 640 640).1
      = [(-50, -50, 50, 50)] ∧ ¬ ((0 : ℤ) ≤ -50) := by
  constructor
  · norm_num [postProcessDet, detCandidates, predNeg, maxScore, nmsSingle,
      scaleBox, detXYWH, ratTrunc]
  · decide

/-- C2 (amended): every box returned by the detector post-processing has
integer coordinates obtained by rescaling a confidence-passing row to the
original frame with the per-axis ratios and casting to int (truncation
toward zero); the coordinates are not clipped and may lie outside
`[0, W) × [0, H)`. -/
theorem det_postprocess_amended
    (nms : List (ℚ × ℚ × ℚ × ℚ) → List ℚ → List Nat)
    (pred : List DetRow) (ow oh conf dw dh : ℚ)
    (hk : ∀ k ∈ nms ((detCandidates pred conf).map detXYWH)
            ((detCandidates pred conf).map (fun r => maxScore r.clsScores)),
          k < (detCandidates pred conf).length) :
    ∀ b ∈ (postProcessDet nms pred ow oh conf dw dh).1,
      ∃ r ∈ pred, conf < maxScore r.clsScores ∧ b = scaleBox ow oh dw dh r := by
  intro b hb
  unfold postProcessDet at hb
  split at hb
  · simp at hb
  · split at hb
    · simp at hb
    · simp only [List.mem_map] at hb
      obtain ⟨k, hkmem, hkeq⟩ := hb
      have hklt := hk k hkmem
      have hget : (detCandidates pred conf).getD k ⟨0, 0, 0, 0, []⟩
          ∈ detCandidates pred conf := by
        rw [List.getD_eq_getElem _ _ hklt]
        exact List.getElem_mem hklt
      have hmem := List.mem_filter.mp hget
      exact ⟨(detCandidates pred conf).getD k ⟨0, 0, 0, 0, []⟩, hmem.1,
        of_decide_eq_true hmem.2, hkeq.symm⟩

theorem det_postprocess_amended_witness :
    (1 / 2 : ℚ) < maxScore (⟨0, 0, 100, 100, [1]⟩ : DetRow).clsScores ∧
    ((-50 : ℤ), (-50 : ℤ), (50 : ℤ), (50 : ℤ))
      = scaleBox 640 640 640 640 ⟨0, 0, 100, 100, [1]⟩ := by
  have h := det_postprocess_amended nmsSingle predNeg 640 640 (1 / 2) 640 640
    (by
      intro k hk
      simp [nmsSingle] at hk
      subst hk
      norm_num [detCandidates, predNeg, maxScore])
    ((-50 : ℤ), (-50 : ℤ), (50 : ℤ), (50 : ℤ))
    (by
      norm_num [postProcessDet, detCandidates, predNeg, maxScore, nmsSingle,
        scaleBox, detXYWH, ratTrunc])
  obtain ⟨r, hr, hconf, heq⟩ := h
  have hrow : r = ⟨0, 0, 100, 100, [1]⟩ := by simpa [predNeg] using hr
  subst hrow
  exact ⟨hconf, heq⟩

theorem filter_getD_index {α : Type} (p : α → Bool) (d : α) :
    ∀ (l : List α) (i : Nat), i < (l.filter p).length →
      ∃ j, j < l.length ∧ (l.filter p).getD i d = l.getD j d ∧
        p (l.getD j d) = true ∧
        i + ((l.take j).filter (fun x => ! p x)).length = j := by
  intro l
  induction l with
  | nil => intro i h; simp at h
  | cons x xs ih =>
    intro i h
    by_cases hp : p x
    · rw [List.filter_cons_of_pos hp] at h
      cases i with
      | zero =>
        refine ⟨0, by simp, ?_, by simpa, by simp⟩
        rw [List.filter_cons_of_pos hp]
        simp
      | succ i =>
        have h2 : i < (xs.filter p).length := by simpa using h
        obtain ⟨j, hj1, hj2, hj3, hj4⟩ := ih i h2
        refine ⟨j + 1, by simpa using hj1, ?_, by simpa using hj3, ?_⟩
        · rw [List.filter_cons_of_pos hp]
          simpa using hj2
        · rw [List.take_succ_cons, List.filter_cons_of_neg (by simp [hp])]
          omega
    · rw [List.filter_cons_of_neg hp] at h
      obtain ⟨j, hj1, hj2, hj3, hj4⟩ := ih i h
      refine ⟨j + 1, by simpa using hj1, ?_, by simpa using hj3, ?_⟩
      · rw [List.filter_cons_of_neg hp]
        simpa using hj2
      · rw [List.take_succ_cons, List.filter_cons_of_pos (by simp [hp])]
        simp only [List.length_cons]
        omega

theorem getD_map_of_lt {α β : Type} (f : α → β) (l : List α) (i : Nat) (d : α)
    (db : β) (h : i < l.length) : (l.map f).getD i db = f (l.getD i d) := by
  rw [List.getD_eq_getElem _ _ (by simpa using h), List.getD_eq_getElem _ _ h]
  simp

/-- C10: boxes with non-positive width or height are excluded from the
classification crop list, so the class-id list can be shorter than the box
list; class ids are paired with boxes purely by index, so every box after an
excluded one receives the class id computed for a later box, and a box whose
index is beyond the end of the class-id list is treated as class id 0, a
member of the default anomaly and snapshot class sets. -/
theorem cls_pairing_misalignment (classify : Box → Nat) (boxes : List Box) :
    ((∃ b ∈ boxes, posCrop b = false) →
      (clsIdsOf classify boxes).length < boxes.length) ∧
    (∀ i j0, j0 < i → j0 < boxes.length → posCrop (boxes.getD j0 defBox) = false →
      i < (clsIdsOf classify boxes).length →
      ∃ j, i < j ∧ j < boxes.length ∧ posCrop (boxes.getD j defBox) = true ∧
        pairedCls (clsIdsOf classify boxes) i = classify (boxes.getD j defBox)) ∧
    (∀ i, (clsIdsOf classify boxes).length ≤ i →
      pairedCls (clsIdsOf classify boxes) i = 0) ∧
    (0 ∈ defaultAnomalyClasses ∧ 0 ∈ defaultSnapshotClasses) := by
  refine ⟨?_, ?_, ?_, by decide⟩
  · rintro ⟨b, hb, hpb⟩
    unfold clsIdsOf
    rw [List.length_map]
    exact List.length_filter_lt_length_iff_exists.mpr ⟨b, hb, by simp [hpb]⟩
  · intro i j0 hj0i hj0len hex hi
    unfold clsIdsOf at hi
    rw [List.length_map] at hi
    obtain ⟨j, hj1, hj2, hj3, hj4⟩ := filter_getD_index posCrop defBox boxes i hi
    have hmem : boxes.getD j0 defBox ∈ boxes.take j := by
      have hj0t : j0 < (boxes.take j).length := by
        rw [List.length_take]
        omega
      rw [List.getD_eq_getElem _ _ hj0len]
      have hval : (boxes.take j)[j0] = boxes[j0] := List.getElem_take boxes
      rw [← hval]
      exact List.getElem_mem hj0t
    have hcnt : 0 < ((boxes.take j).filter (fun x => ! posCrop x)).length := by
      apply List.length_pos.mpr
      intro hnil
      have hm2 : boxes.getD j0 defBox ∈ (boxes.take j).filter (fun x => ! posCrop x) :=
        List.mem_filter.mpr ⟨hmem, by rw [Bool.not_eq_true']; exact hex⟩
      rw [hnil] at hm2
      simp at hm2
    refine ⟨j, by omega, hj1, hj3, ?_⟩
    unfold pairedCls clsIdsOf
    rw [getD_map_of_lt classify (boxes.filter posCrop) i defBox 0 hi, hj2]
  · intro i hi
    unfold pairedCls
    rw [List.getD_eq_getElem?_getD]
    rw [List.getElem?_eq_none hi]
    rfl

theorem cls_pairing_misalignment_witness :
    (clsIdsOf (fun _ => 7) [⟨0, 0, 0, 0⟩, ⟨0, 0, 5, 5⟩]).length
      < ([⟨0, 0, 0, 0⟩, ⟨0, 0, 5, 5⟩] : List Box).length ∧
    pairedCls (clsIdsOf (fun _ => 7) [⟨0, 0, 0, 0⟩, ⟨0, 0, 5, 5⟩]) 1 = 0 := by
  have h := cls_pairing_misalignment (fun _ => 7) [⟨0, 0, 0, 0⟩, ⟨0, 0, 5, 5⟩]
  exact ⟨h.1 ⟨⟨0, 0, 0, 0⟩, by decide, by decide⟩, h.2.2.1 1 (by decide)⟩

theorem calibRun_partial (M : Nat) (fcen : Option (List (Nat × ℤ × ℤ))) :
    ∀ (frames : List (List Box × List (Nat × Nat))) (tr : TrackerState) (fc : Nat),
      fc + frames.length < M →
      calibRun ⟨tr, fc, M, fcen, true⟩ frames
        = ⟨trackerFold tr frames, fc + frames.length, M, fcen, true⟩ := by
  intro frames
  induction frames with
  | nil => intro tr fc h; simp [calibRun, trackerFold]
  | cons p frames ih =>
    intro tr fc h
    have hlt : ¬ (M ≤ fc + 1) := by simp at h; omega
    have hstep : calibStep ⟨tr, fc, M, fcen, true⟩ p
        = ⟨trackerUpdate p.2 tr p.1, fc + 1, M, fcen, true⟩ := by
      unfold calibStep
      rw [if_pos rfl, if_neg hlt]
    have hrun : calibRun ⟨tr, fc, M, fcen, true⟩ (p :: frames)
        = calibRun (calibStep ⟨tr, fc, M, fcen, true⟩ p) frames := rfl
    rw [hrun, hstep, ih (trackerUpdate p.2 tr p.1) (fc + 1) (by simp at h ⊢; omega)]
    have harith : fc + 1 + frames.length = fc + (p :: frames).length := by
      simp; omega
    rw [harith]
    rfl

/-- C7: while tracking is on, every inferred frame feeds its boxes to the
tracker and increments the calibration frame counter; after exactly
`TRACK_MAX_FRAMES` frames the seat map equals the tracker final centers (the
per-track integer average centers), tracking is cleared and the counter is
reset to 0. -/
theorem calibration_boundary (tr0 : TrackerState) (M : Nat)
    (fc0 : Option (List (Nat × ℤ × ℤ))) (frames : List (List Box × List (Nat × Nat)))
    (hM : 1 ≤ M) (hlen : frames.length = M) :
    (∀ k, k < M →
      calibRun ⟨tr0, 0, M, fc0, true⟩ (frames.take k)
        = ⟨trackerFold tr0 (frames.take k), k, M, fc0, true⟩) ∧
    calibRun ⟨tr0, 0, M, fc0, true⟩ frames
      = ⟨trackerFold tr0 frames, 0, M,
         some (getFinalCenters (trackerFold tr0 frames)), false⟩ := by
  constructor
  · intro k hk
    have htk : (frames.take k).length = k := by rw [List.length_take]; omega
    have h1 := calibRun_partial M fc0 (frames.take k) tr0 0 (by rw [htk]; omega)
    rw [htk] at h1
    simpa using h1
  · have hsplit : frames.take (M - 1) ++ frames.drop (M - 1) = frames :=
      List.take_append_drop _ _
    have hdlen : (frames.drop (M - 1)).length = 1 := by
      rw [List.length_drop]; omega
    obtain ⟨x, hx⟩ := List.length_eq_one.mp hdlen
    have htk : (frames.take (M - 1)).length = M - 1 := by
      rw [List.length_take]; omega
    have h1 := calibRun_partial M fc0 (frames.take (M - 1)) tr0 0 (by rw [htk]; omega)
    rw [htk] at h1
    have happ : calibRun ⟨tr0, 0, M, fc0, true⟩ frames
        = calibRun (calibRun ⟨tr0, 0, M, fc0, true⟩ (frames.take (M - 1)))
            (frames.drop (M - 1)) := by
      conv_lhs => rw [← hsplit]
      simp only [calibRun, List.foldl_append]
    have hfold : trackerFold tr0 frames
        = trackerUpdate x.2 (trackerFold tr0 (frames.take (M - 1))) x.1 := by
      conv_lhs => rw [← hsplit]
      rw [hx]
      simp only [trackerFold, List.foldl_append, List.foldl_cons, List.foldl_nil]
    rw [happ, h1, hx]
    have hstep : calibStep ⟨trackerFold tr0 (frames.take (M - 1)), 0 + (M - 1), M, fc0, true⟩ x
        = ⟨trackerUpdate x.2 (trackerFold tr0 (frames.take (M - 1))) x.1, 0, M,
           some (getFinalCenters
             (trackerUpdate x.2 (trackerFold tr0 (frames.take (M - 1))) x.1)), false⟩ := by
      unfold calibStep
      rw [if_pos rfl, if_pos (show M ≤ 0 + (M - 1) + 1 by omega)]
    have hrun1 : calibRun ⟨trackerFold tr0 (frames.take (M - 1)), 0 + (M - 1), M, fc0, true⟩ [x]
        = calibStep ⟨trackerFold tr0 (frames.take (M - 1)), 0 + (M - 1), M, fc0, true⟩ x := rfl
    rw [hrun1, hstep, ← hfold]

theorem calibration_boundary_witness :
    calibRun ⟨trackerInit, 0, 1, none, true⟩ [([⟨0, 0, 10, 10⟩], [])]
      = ⟨trackerFold trackerInit [([⟨0, 0, 10, 10⟩], [])], 0, 1,
         some (getFinalCenters (trackerFold trackerInit [([⟨0, 0, 10, 10⟩], [])])),
         false⟩ :=
  (calibration_boundary trackerInit 1 none [([⟨0, 0, 10, 10⟩], [])] (by decide) rfl).2

theorem matchFold_length (dets : List Box) :
    ∀ (pairs : List (Nat × Nat)) (ts : List Track),
      (pairs.foldl (matchStep dets) ts).length = ts.length := by
  intro pairs
  induction pairs with
  | nil => intro ts; rfl
  | cons rc pairs ih =>
    intro ts
    calc ((rc :: pairs).foldl (matchStep dets) ts).length
        = (pairs.foldl (matchStep dets) (matchStep dets ts rc)).length := rfl
      _ = (matchStep dets ts rc).length := ih _
      _ = ts.length := by simp [matchStep]

theorem matchFold_getD_not_mem (dets : List Box) (d : Track) :
    ∀ (pairs : List (Nat × Nat)) (ts : List Track) (i : Nat),
      i ∉ pairs.map Prod.fst →
      (pairs.foldl (matchStep dets) ts).getD i d = ts.getD i d := by
  intro pairs
  induction pairs with
  | nil => intro ts i _; rfl
  | cons rc pairs ih =>
    intro ts i hi
    have hi1 : i ≠ rc.1 := by simp at hi; exact fun h => absurd h (by simp [hi.1])
    have hi2 : i ∉ pairs.map Prod.fst := by simp at hi ⊢; exact hi.2
    calc ((rc :: pairs).foldl (matchStep dets) ts).getD i d
        = (pairs.foldl (matchStep dets) (matchStep dets ts rc)).getD i d := rfl
      _ = (matchStep dets ts rc).getD i d := ih _ i hi2
      _ = ts.getD i d := by
          unfold matchStep
          simp only [List.getD_eq_getElem?_getD]
          rw [List.getElem?_set_ne (by omega)]

theorem matchFold_getD_id (dets : List Box) :
    ∀ (pairs : List (Nat × Nat)) (ts : List Track) (i : Nat),
      ((pairs.foldl (matchStep dets) ts).getD i defTrack).id
        = (ts.getD i defTrack).id := by
  intro pairs
  induction pairs with
  | nil => intro ts i; rfl
  | cons rc pairs ih =>
    intro ts i
    have h0 : ((rc :: pairs).foldl (matchStep dets) ts).getD i defTrack
        = (pairs.foldl (matchStep dets) (matchStep dets ts rc)).getD i defTrack := rfl
    rw [h0, ih (matchStep dets ts rc) i]
    show ((matchStep dets ts rc).getD i defTrack).id = (ts.getD i defTrack).id
    have hgoal : ((matchStep dets ts rc).getD i defTrack).id
        = (ts.getD i defTrack).id := by
          unfold matchStep
          by_cases hlt : rc.1 < ts.length
          · by_cases hi : i = rc.1
            · subst hi
              simp only [List.getD_eq_getElem?_getD]
              rw [List.getElem?_set_self (by omega)]
              simp only [Option.getD_some]
              rfl
            · simp only [List.getD_eq_getElem?_getD]
              rw [List.getElem?_set_ne (by omega)]
          · rw [List.set_eq_of_length_le (by omega)]
    exact hgoal

theorem matchFold_getD_zero (dets : List Box) :
    ∀ (pairs : List (Nat × Nat)) (ts : List Track) (i : Nat),
      (∀ rc ∈ pairs, rc.1 < ts.length) →
      i ∈ pairs.map Prod.fst →
      ((pairs.foldl (matchStep dets) ts).getD i defTrack).last_update = 0 := by
  intro pairs
  induction pairs with
  | nil => intro ts i _ hi; simp at hi
  | cons rc pairs ih =>
    intro ts i hb hi
    have hlen : (matchStep dets ts rc).length = ts.length := by simp [matchStep]
    by_cases hmem : i ∈ pairs.map Prod.fst
    · exact ih (matchStep dets ts rc) i
        (fun p hp => by rw [hlen]; exact hb p (List.mem_cons_of_mem _ hp)) hmem
    · have hieq : i = rc.1 := by
        simp at hi
        rcases hi with h | h
        · exact h
        · exact absurd (by simpa using h) (by simpa using hmem)
      subst hieq
      have hstep : ((rc :: pairs).foldl (matchStep dets) ts)
          = pairs.foldl (matchStep dets) (matchStep dets ts rc) := rfl
      rw [hstep, matchFold_getD_not_mem dets defTrack pairs _ rc.1 hmem]
      have hlt : rc.1 < ts.length := hb rc (by simp)
      unfold matchStep
      simp only [List.getD_eq_getElem?_getD]
      rw [List.getElem?_set_self (by omega)]
      rfl

theorem enumFrom_map_fst_add {β : Type} (n : Nat) :
    ∀ (l : List β) (k : Nat),
      (l.enumFrom k).map (fun kd => n + kd.1) = List.range' (n + k) l.length := by
  intro l
  induction l with
  | nil => intro k; rfl
  | cons x xs ih =>
    intro k
    simp only [List.enumFrom_cons, List.map_cons, List.length_cons]
    rw [ih (k + 1), List.range'_succ]
    rfl

theorem enum_map_getD {α β : Type} (f : Nat × α → β) (l : List α) (i : Nat) (d : α)
    (db : β) (h : i < l.length) : (l.enum.map f).getD i db = f (i, l.getD i d) := by
  have h1 : i < (l.enum.map f).length := by simpa using h
  rw [List.getD_eq_getElem _ _ h1, List.getD_eq_getElem _ _ h]
  simp [List.enum]

theorem agedTracks_length (assign : List (Nat × Nat)) (s : TrackerState)
    (dets : List Box) :
    (agedTracks assign s dets).length = (afterSpawn assign s dets).length := by
  simp [agedTracks]

theorem agedTracks_getD (assign : List (Nat × Nat)) (s : TrackerState)
    (dets : List Box) (i : Nat) (h : i < (afterSpawn assign s dets).length) :
    (agedTracks assign s dets).getD i defTrack
      = (if i ∈ (acceptedPairs assign s dets).map Prod.fst
         then (afterSpawn assign s dets).getD i defTrack
         else ⟨((afterSpawn assign s dets).getD i defTrack).id,
               ((afterSpawn assign s dets).getD i defTrack).boxes,
               ((afterSpawn assign s dets).getD i defTrack).last_update + 1⟩) := by
  unfold agedTracks
  rw [enum_map_getD _ _ i defTrack _ h]

theorem getD_append_left {α : Type} (l1 l2 : List α) (i : Nat) (d : α)
    (h : i < l1.length) : (l1 ++ l2).getD i d = l1.getD i d := by
  simp only [List.getD_eq_getElem?_getD]
  rw [List.getElem?_append_left h]

theorem getD_append_right {α : Type} (l1 l2 : List α) (i : Nat) (d : α)
    (h : l1.length ≤ i) : (l1 ++ l2).getD i d = l2.getD (i - l1.length) d := by
  simp only [List.getD_eq_getElem?_getD]
  rw [List.getElem?_append_right h]

/-- C3 (amended): for an update step on a non-empty track set, a matched
(track, detection) pair is accepted only if its IoU exceeds `iou_threshold`;
unmatched detections spawn new tracks with fresh monotonically increasing
ids; every track left unmatched by this step has its frames-since-update
counter incremented -- the freshly spawned tracks included, because the
aging loop runs after the new tracks were appended, so a track spawned in
this step ends the step with the counter at 1, not 0; matched tracks end
with counter 0; and only tracks with counter at most `max_age` survive. -/
theorem tracker_update_step (assign : List (Nat × Nat)) (s : TrackerState)
    (dets : List Box) (hne : s.tracks ≠ [])
    (hbound : ∀ rc ∈ assign, rc.1 < s.tracks.length ∧ rc.2 < dets.length)
    (hids : ∀ t ∈ s.tracks, t.id < s.next_id) :
    (∀ rc ∈ acceptedPairs assign s dets,
      s.iou_threshold
        < iouQ ((s.tracks.getD rc.1 defTrack).lastBox) (dets.getD rc.2 defBox)) ∧
    ((spawnedTracks assign s dets).map Track.id
        = List.range' s.next_id (unmatchedDets assign s dets).length ∧
      (trackerUpdate assign s dets).next_id
        = s.next_id + (unmatchedDets assign s dets).length) ∧
    (∀ t ∈ (trackerUpdate assign s dets).tracks,
      s.next_id ≤ t.id → t.last_update = 1) ∧
    (∀ i, i < s.tracks.length →
      (i ∉ (acceptedPairs assign s dets).map Prod.fst →
        ((agedTracks assign s dets).getD i defTrack).last_update
          = (s.tracks.getD i defTrack).last_update + 1) ∧
      (i ∈ (acceptedPairs assign s dets).map Prod.fst →
        ((agedTracks assign s dets).getD i defTrack).last_update = 0)) ∧
    (∀ t ∈ (trackerUpdate assign s dets).tracks, t.last_update ≤ s.max_age) := by
  have haccb : ∀ rc ∈ acceptedPairs assign s dets, rc.1 < s.tracks.length :=
    fun rc h => (hbound rc (List.mem_filter.mp h).1).1
  have hmlen : (afterMatch assign s dets).length = s.tracks.length := by
    unfold afterMatch
    exact matchFold_length dets _ s.tracks
  have hsplen : (spawnedTracks assign s dets).length
      = (unmatchedDets assign s dets).length := by
    simp [spawnedTracks]
  have hspan : (afterSpawn assign s dets).length
      = s.tracks.length + (unmatchedDets assign s dets).length := by
    unfold afterSpawn
    rw [List.length_append, hmlen, hsplen]
  have hleft : ∀ i, i < s.tracks.length →
      (afterSpawn assign s dets).getD i defTrack
        = (afterMatch assign s dets).getD i defTrack := by
    intro i hi
    unfold afterSpawn
    exact getD_append_left _ _ i defTrack (by rw [hmlen]; exact hi)
  refine ⟨?_, ⟨?_, ?_⟩, ?_, ?_, ?_⟩
  · intro rc hrc
    have hmem := List.mem_filter.mp hrc
    have hcost : trackCost s dets rc.1 rc.2 < 1 - s.iou_threshold :=
      of_decide_eq_true hmem.2
    have hdne : dets ≠ [] := by
      have h2 := (hbound rc hmem.1).2
      intro h
      subst h
      simp at h2
    unfold trackCost at hcost
    rw [if_neg hdne] at hcost
    linarith
  · unfold spawnedTracks
    rw [List.map_map]
    have hcomp : (Track.id ∘ fun kd : Nat × Box =>
        (⟨s.next_id + kd.1, [kd.2], 0⟩ : Track)) = fun kd => s.next_id + kd.1 := rfl
    rw [hcomp]
    have h := enumFrom_map_fst_add s.next_id (unmatchedDets assign s dets) 0
    simpa using h
  · unfold trackerUpdate
    rw [if_neg hne]
  · intro t ht hid
    have ht2 : t ∈ agedTracks assign s dets := by
      unfold trackerUpdate at ht
      rw [if_neg hne] at ht
      exact List.mem_of_mem_filter ht
    obtain ⟨i, hi, hti⟩ := List.mem_iff_getElem.mp ht2
    rw [agedTracks_length] at hi
    have htD : (agedTracks assign s dets).getD i defTrack = t := by
      rw [List.getD_eq_getElem _ _ (by rw [agedTracks_length]; exact hi)]
      exact hti
    rw [agedTracks_getD assign s dets i hi] at htD
    by_cases hcase : i < s.tracks.length
    · have hidp : ((afterSpawn assign s dets).getD i defTrack).id
          = (s.tracks.getD i defTrack).id := by
        rw [hleft i hcase]
        unfold afterMatch
        exact matchFold_getD_id dets _ s.tracks i
      have hlt : (s.tracks.getD i defTrack).id < s.next_id := by
        apply hids
        rw [List.getD_eq_getElem _ _ hcase]
        exact List.getElem_mem hcase
      have htid : t.id = ((afterSpawn assign s dets).getD i defTrack).id := by
        rw [← htD]
        by_cases hc : i ∈ (acceptedPairs assign s dets).map Prod.fst
        · rw [if_pos hc]
        · rw [if_neg hc]
      omega
    · have hk : i - s.tracks.length < (unmatchedDets assign s dets).length := by
        rw [hspan] at hi
        omega
      have hsp : (afterSpawn assign s dets).getD i defTrack
          = ⟨s.next_id + (i - s.tracks.length),
             [(unmatchedDets assign s dets).getD (i - s.tracks.length) defBox],
             0⟩ := by
        unfold afterSpawn
        rw [getD_append_right _ _ i defTrack (by rw [hmlen]; omega), hmlen]
        unfold spawnedTracks
        exact enum_map_getD _ _ _ defBox _ hk
      have hnotm : i ∉ (acceptedPairs assign s dets).map Prod.fst := by
        intro hm
        obtain ⟨rc, hrc, hrceq⟩ := List.mem_map.mp hm
        have := haccb rc hrc
        omega
      rw [if_neg hnotm] at htD
      rw [← htD, hsp]
  · intro i hilt
    constructor
    · intro hnm
      rw [agedTracks_getD _ _ _ i (by rw [hspan]; omega), if_neg hnm, hleft i hilt]
      unfold afterMatch
      rw [matchFold_getD_not_mem dets defTrack _ s.tracks i hnm]
    · intro hm
      rw [agedTracks_getD _ _ _ i (by rw [hspan]; omega), if_pos hm, hleft i hilt]
      unfold afterMatch
      exact matchFold_getD_zero dets _ s.tracks i haccb hm
  · intro t ht
    unfold trackerUpdate at ht
    rw [if_neg hne] at ht
    have hmem := List.mem_filter.mp ht
    exact of_decide_eq_true hmem.2

theorem alSet_lookup_self {κ ν : Type} [BEq κ] [LawfulBEq κ] (k : κ) (v : ν)
    (l : List (κ × ν)) : (alSet k v l).lookup k = some v := by
  simp [alSet, List.lookup]

theorem runStream_invariant (tf cf : Nat) (key : Nat × Nat) (htf : 1 ≤ tf) :
    ∀ n : Nat,
      ((runStream tf cf key n).1.runs.lookup key
          = if n = 0 then none else some ⟨n % max tf cf, 0, some n⟩) ∧
      (getCooldown (runStream tf cf key n).1 key
          = max tf cf * (n / max tf cf)) ∧
      ((runStream tf cf key n).2
          = (List.range' 1 n).filter (fun f => decide (f % max tf cf = 0))) := by
  intro n
  induction n with
  | zero => exact ⟨rfl, by simp [runStream, getCooldown, snapInit], rfl⟩
  | succ n ih =>
    obtain ⟨ih1, ih2, ih3⟩ := ih
    have hm1 : 1 ≤ max tf cf := le_trans htf (le_max_left _ _)
    have hcnt : runCount (getRun (runStream tf cf key n).1 key 0) (n + 1)
        = n % max tf cf + 1 := by
      unfold getRun
      rw [ih1]
      by_cases hn : n = 0
      · subst hn
        simp [runCount]
      · rw [if_neg hn]
        simp [runCount]
    obtain hdm := Nat.div_add_mod n (max tf cf)
    have hrlt : n % max tf cf < max tf cf := Nat.mod_lt _ (by omega)
    have hgap : ((n + 1 : Nat) : ℤ) - (getCooldown (runStream tf cf key n).1 key : ℤ)
        = (n % max tf cf : ℤ) + 1 := by
      rw [ih2]
      have hz : ((max tf cf : ℤ)) * ((n / max tf cf : Nat) : ℤ)
          + ((n % max tf cf : Nat) : ℤ) = (n : ℤ) := by exact_mod_cast hdm
      push_cast
      linarith
    have hfire : snapFires tf cf key (n + 1) 0 (runStream tf cf key n).1 = true
        ↔ n % max tf cf + 1 = max tf cf := by
      unfold snapFires
      rw [hcnt]
      simp only [Bool.and_eq_true, decide_eq_true_eq]
      constructor
      · rintro ⟨h1, h2⟩
        rw [hgap] at h2
        have hcfle : cf ≤ n % max tf cf + 1 := by exact_mod_cast h2
        have hmle : max tf cf ≤ n % max tf cf + 1 := max_le h1 hcfle
        omega
      · intro hr1
        refine ⟨by have := le_max_left tf cf; omega, ?_⟩
        rw [hgap]
        have := le_max_right tf cf
        exact_mod_cast by omega
    by_cases hfb : snapFires tf cf key (n + 1) 0 (runStream tf cf key n).1 = true
    · have hr1 : n % max tf cf + 1 = max tf cf := hfire.mp hfb
      have hsum : n + 1 = max tf cf * (n / max tf cf) + max tf cf := by
        linarith [hdm]
      have hfact : n + 1 = max tf cf * (n / max tf cf + 1) := by
        rw [Nat.mul_succ]
        exact hsum
      have hmod : (n + 1) % max tf cf = 0 := by
        rw [hfact]
        exact Nat.mul_mod_right _ _
      have hdiv : (n + 1) / max tf cf = n / max tf cf + 1 := by
        rw [hfact]
        exact Nat.mul_div_cancel_left _ (by omega)
      refine ⟨?_, ?_, ?_⟩
      · have hs : (runStream tf cf key (n + 1)).1
            = (stepRun tf cf key (n + 1) 0 (runStream tf cf key n).1).1 := rfl
        rw [hs]
        unfold stepRun
        rw [if_pos hfb]
        rw [if_neg (Nat.succ_ne_zero n), hmod]
        exact alSet_lookup_self _ _ _
      · have hs : (runStream tf cf key (n + 1)).1
            = (stepRun tf cf key (n + 1) 0 (runStream tf cf key n).1).1 := rfl
        rw [hs]
        unfold stepRun
        rw [if_pos hfb]
        unfold getCooldown
        rw [hdiv]
        have : (alSet key (n + 1) (runStream tf cf key n).1.cooldown).lookup key
            = some (n + 1) := alSet_lookup_self _ _ _
        rw [this]
        simp only [Option.getD_some]
        rw [← hfact]
      · have hs : (runStream tf cf key (n + 1)).2
            = if (stepRun tf cf key (n + 1) 0 (runStream tf cf key n).1).2
              then (runStream tf cf key n).2 ++ [n + 1]
              else (runStream tf cf key n).2 := rfl
        rw [hs]
        have hb2 : (stepRun tf cf key (n + 1) 0 (runStream tf cf key n).1).2 = true := by
          unfold stepRun
          rw [if_pos hfb]
        rw [hb2, if_pos rfl, ih3, List.range'_1_concat, List.filter_append]
        congr 1
        have : (1 + n) % max tf cf = 0 := by rw [Nat.add_comm]; exact hmod
        simp [this]
        try omega
    · have hr1 : n % max tf cf + 1 ≠ max tf cf := fun h => hfb (hfire.mpr h)
      have hrlt2 : n % max tf cf + 1 < max tf cf := by omega
      have hsum : n + 1 = (n % max tf cf + 1) + (n / max tf cf) * max tf cf := by
        have hqm : (n / max tf cf) * max tf cf = max tf cf * (n / max tf cf) :=
          Nat.mul_comm _ _
        linarith [hdm, hqm]
      have hmod : (n + 1) % max tf cf = n % max tf cf + 1 := by
        rw [hsum, Nat.add_mul_mod_self_right]
        exact Nat.mod_eq_of_lt hrlt2
      have hdiv : (n + 1) / max tf cf = n / max tf cf := by
        rw [hsum, Nat.add_mul_div_right _ _ (by omega : 0 < max tf cf),
          Nat.div_eq_of_lt hrlt2, Nat.zero_add]
      refine ⟨?_, ?_, ?_⟩
      · have hs : (runStream tf cf key (n + 1)).1
            = (stepRun tf cf key (n + 1) 0 (runStream tf cf key n).1).1 := rfl
        rw [hs]
        unfold stepRun
        rw [if_neg hfb]
        rw [if_neg (Nat.succ_ne_zero n), hmod, hcnt]
        exact alSet_lookup_self _ _ _
      · have hs : (runStream tf cf key (n + 1)).1
            = (stepRun tf cf key (n + 1) 0 (runStream tf cf key n).1).1 := rfl
        rw [hs]
        unfold stepRun
        rw [if_neg hfb]
        unfold getCooldown
        rw [hdiv]
        exact ih2
      · have hs : (runStream tf cf key (n + 1)).2
            = if (stepRun tf cf key (n + 1) 0 (runStream tf cf key n).1).2
              then (runStream tf cf key n).2 ++ [n + 1]
              else (runStream tf cf key n).2 := rfl
        rw [hs]
        have hb2 : (stepRun tf cf key (n + 1) 0 (runStream tf cf key n).1).2 = false := by
          unfold stepRun
          rw [if_neg hfb]
        rw [hb2, if_neg (by simp), ih3, List.range'_1_concat, List.filter_append]
        have : (1 + n) % max tf cf = n % max tf cf + 1 := by rw [Nat.add_comm]; exact hmod
        simp [this]
        try omega

/-- C1 counterexample: with `snapshot_threshold_frames = 1` and
`snapshot_cooldown_frames = 2`, on a stream with the anomaly present on
every frame from the start, no snapshot is written on frame 1 (the
threshold frame, as the claim requires): the cooldown map defaults the
last snapshot frame to 0, so the first snapshot is gated to frame
`max(threshold, cooldown) = 2`. -/
theorem snapshot_first_frame_counterexample :
    (runStream 1 2 (0, 0) 1).2 = [] ∧ (runStream 1 2 (0, 0) 2).2 = [2] := by
  constructor
  · decide
  · decide

/-- C1 (amended): per `(seat id, class id)`, a snapshot is emitted exactly
when the consecutive count reaches `snapshot_threshold_frames` and the
current global frame minus the last snapshot frame (which starts at 0) is
at least `snapshot_cooldown_frames`; then the last snapshot frame is set to
the current frame and the count reset to 0.  On a stream where the anomaly
is present on every frame from the start of the exam, snapshots fall
exactly on the frames divisible by `max(threshold, cooldown)`: the first on
frame `max(threshold, cooldown)` (not on frame `threshold` when the
cooldown is larger) and consecutive snapshots at least
`max(threshold, cooldown)` frames apart.  A single missed frame resets the
consecutive counter. -/
theorem snapshot_trigger_amended (tf cf : Nat) (key : Nat × Nat) (n : Nat)
    (htf : 1 ≤ tf) :
    ((runStream tf cf key n).2
        = (List.range' 1 n).filter (fun f => decide (f % max tf cf = 0))) ∧
    (∀ f ∈ (runStream tf cf key n).2, max tf cf ≤ f ∧ max tf cf ∣ f) ∧
    (∀ f g, f ∈ (runStream tf cf key n).2 → g ∈ (runStream tf cf key n).2 →
      f < g → f + max tf cf ≤ g) ∧
    (∀ (st : SnapState) (f : Nat) (ts : ℚ),
      (stepRun tf cf key f ts st).2 = true →
        getCooldown (stepRun tf cf key f ts st).1 key = f ∧
        ((stepRun tf cf key f ts st).1.runs.lookup key).map RunInfo.count
          = some 0) ∧
    (∀ (st : SnapState) (f lf : Nat) (ts : ℚ) (r : RunInfo),
      st.runs.lookup key = some r → r.last_frame = some lf → f ≠ lf + 1 →
      ((stepRun tf cf key f ts st).1.runs.lookup key).map RunInfo.count
        = some (if (stepRun tf cf key f ts st).2 then 0 else 1)) := by
  have hinv := runStream_invariant tf cf key htf n
  have hdvdmem : ∀ f ∈ (runStream tf cf key n).2, max tf cf ≤ f ∧ max tf cf ∣ f := by
    intro f hf
    rw [hinv.2.2] at hf
    have hmem := List.mem_filter.mp hf
    have hdvd : max tf cf ∣ f := Nat.dvd_of_mod_eq_zero (of_decide_eq_true hmem.2)
    have hrange := List.mem_range'_1.mp hmem.1
    exact ⟨Nat.le_of_dvd (by omega) hdvd, hdvd⟩
  refine ⟨hinv.2.2, hdvdmem, ?_, ?_, ?_⟩
  · intro f g hf hg hfg
    have hdf := (hdvdmem f hf).2
    have hdg := (hdvdmem g hg).2
    have hdiff : max tf cf ∣ g - f := Nat.dvd_sub' hdg hdf
    have hle : max tf cf ≤ g - f := Nat.le_of_dvd (by omega) hdiff
    omega
  · intro st f ts hfire2
    have hc : snapFires tf cf key f ts st = true := by
      by_contra hc
      unfold stepRun at hfire2
      rw [if_neg hc] at hfire2
      simp at hfire2
    unfold stepRun
    rw [if_pos hc]
    constructor
    · unfold getCooldown
      rw [alSet_lookup_self]
      rfl
    · rw [alSet_lookup_self]
      rfl
  · intro st f lf ts r hlk hlf hne2
    have hrc : runCount (getRun st key ts) f = 1 := by
      unfold getRun runCount
      rw [hlk]
      simp only [Option.getD_some, hlf]
      rw [if_neg hne2]
    by_cases hc : snapFires tf cf key f ts st = true
    · have hb : (stepRun tf cf key f ts st).2 = true := by
        unfold stepRun
        rw [if_pos hc]
      rw [hb, if_pos rfl]
      unfold stepRun
      rw [if_pos hc]
      rw [alSet_lookup_self]
      rfl
    · have hb : (stepRun tf cf key f ts st).2 = false := by
        unfold stepRun
        rw [if_neg hc]
      rw [hb, if_neg (by simp)]
      unfold stepRun
      rw [if_neg hc]
      rw [alSet_lookup_self, hrc]
      rfl

theorem snapshot_trigger_amended_witness :
    (runStream 2 3 (0, 0) 6).2
      = (List.range' 1 6).filter (fun f => decide (f % max 2 3 = 0)) :=
  (snapshot_trigger_amended 2 3 (0, 0) 6 (by decide)).1

/-- C3 counterexample: one existing track at (0,0)-(10,10), one detection at
(100,100)-(110,110) with IoU 0, assignment pairing them (as
`linear_sum_assignment` does on a 1x1 matrix).  The pair is rejected by the
IoU gate, the detection spawns track id 1 -- and the aging loop, which runs
after the spawn, leaves the new track with frames-since-update 1, not 0 as
the claim states. -/
theorem tracker_spawn_counter_counterexample :
    ((trackerUpdate [(0, 0)] ⟨[⟨0, [⟨0, 0, 10, 10⟩], 0⟩], 1, 10, 3 / 10⟩
        [⟨100, 100, 110, 110⟩]).tracks.map
      (fun t => (t.id, t.last_update))) = [(0, 1), (1, 1)] ∧ (1 : Nat) ≠ 0 := by
  constructor
  · norm_num [trackerUpdate, agedTracks, afterSpawn, afterMatch, acceptedPairs,
      spawnedTracks, unmatchedDets, matchStep, trackCost, iouQ, Track.lastBox,
      defTrack, defBox]
    decide
  · decide

theorem tracker_update_step_witness :
    (trackerUpdate [(0, 0)] ⟨[⟨0, [⟨0, 0, 10, 10⟩], 0⟩], 1, 10, 3 / 10⟩
        [⟨100, 100, 110, 110⟩]).next_id
      = 1 + (unmatchedDets [(0, 0)] ⟨[⟨0, [⟨0, 0, 10, 10⟩], 0⟩], 1, 10, 3 / 10⟩
          [⟨100, 100, 110, 110⟩]).length :=
  (tracker_update_step [(0, 0)] ⟨[⟨0, [⟨0, 0, 10, 10⟩], 0⟩], 1, 10, 3 / 10⟩
    [⟨100, 100, 110, 110⟩] (by decide) (by decide) (by decide)).2.1.2
